import Mathlib

/-!
Shallow embedding of the quote-generator script
(`src/dom-manipulation/script.js`, first document) for verification.

The program keeps a global mutable array `quotes` of records with two
string fields, `text` and `category`, persists it to `localStorage`
under the key `quotes` as a JSON string, adds user records after
trimming and validating them, filters by category, imports JSON arrays
from files, and merges a converted remote batch into the local list by
a concatenate-then-deduplicate pass.

Host builtins used by the script (`String.prototype.trim`,
`JSON.stringify` and `JSON.parse` on the record-array schema,
`localStorage`) are embedded as executable Lean functions; DOM access,
messages and timers are pure I/O and are represented only by the
boolean success flag a caller can observe.
-/

namespace QuoteApp

/-- A quote record: the atomic unit of data, a text/category pair.
Source: the object shape `text: ..., category: ...` used throughout
`script.js`. -/
structure Quote where
  text : String
  category : String
deriving DecidableEq, Repr

/-- The browser `localStorage` slice the script touches: the value
stored under the key `quotes` (a serialized collection) and the value
under `lastFilter` (a plain category string), each possibly absent. -/
structure Storage where
  quotesVal : Option String
  lastFilterVal : Option String
deriving DecidableEq, Repr

/-- Storage with neither key present (first run). -/
def emptyStorage : Storage := ⟨none, none⟩

/-- The four hardcoded seed records (`script.js` lines 2-7). -/
def initialQuotes : List Quote :=
  [⟨"The only way to do great work is to love what you do.", "Work"⟩,
   ⟨"The future belongs to those who believe in the beauty of their dreams.", "Inspiration"⟩,
   ⟨"It is during our darkest moments that we must focus to see the light.", "Hope"⟩,
   ⟨"The journey of a thousand miles begins with a single step.", "Life"⟩]

/-- The characters `String.prototype.trim` strips: ECMA-262 WhiteSpace
(tab, vertical tab, form feed, space, no-break space, zero-width
no-break space, and every Space_Separator code point) together with
the LineTerminator characters. -/
def isJsWhitespace (c : Char) : Bool :=
  c = ' ' || c = '\t' || c = '\n' || c = '\r' || c = '\x0b' || c = '\x0c' ||
  c = '\u00A0' || c = '\u1680' || (0x2000 ≤ c.val && c.val ≤ 0x200A) ||
  c = '\u2028' || c = '\u2029' || c = '\u202F' || c = '\u205F' ||
  c = '\u3000' || c = '\uFEFF'

/-- Embedding of `String.prototype.trim`: drop leading and trailing
whitespace characters. -/
def jsTrim (s : String) : String :=
  String.mk (((s.data.dropWhile isJsWhitespace).reverse.dropWhile isJsWhitespace).reverse)

/-! ### The storage codec

`saveQuotes` runs `JSON.stringify(quotes)` and `loadQuotes` runs
`JSON.parse` on the stored string.  `JSON.stringify` of the record
array produces, with no whitespace,
`[` object `,` object ... `]` where each object is
`\x7b"text":` string `,"category":` string `\x7d`
(keys in insertion order, which is `text` then `category` for every
record the script builds), each string double-quoted with `"` and `\`
escaped; control characters, which `JSON.stringify` writes as named or
`\u` escapes, are kept verbatim here — the parse result, which is all
the round-trip theorem consumes, is the same either way.  The parser
below models `JSON.parse` on exactly this canonical grammar, the only
shape an uncorrupted store can hold. -/

/-- Escape one character of a JSON string literal. -/
def escapeChar (c : Char) : List Char :=
  if c = '"' then ['\\', '"']
  else if c = '\\' then ['\\', '\\']
  else if c = '\n' then ['\\', 'n']
  else if c = '\t' then ['\\', 't']
  else if c = '\r' then ['\\', 'r']
  else [c]

/-- Escape every character of a JSON string body. -/
def escapeChars : List Char → List Char
  | [] => []
  | c :: cs => escapeChar c ++ escapeChars cs

/-- Serialize one record the way `JSON.stringify` prints it (`\x7b` and
`\x7d` denote the braces). -/
def serializeQuoteChars (q : Quote) : List Char :=
  "\x7b\"text\":\"".data ++ escapeChars q.text.data
    ++ "\",\"category\":\"".data ++ escapeChars q.category.data ++ "\"\x7d".data

/-- Comma-separated serialization of the records of a collection. -/
def serializeQuotesSep : List Quote → List Char
  | [] => []
  | [q] => serializeQuoteChars q
  | q :: qs => serializeQuoteChars q ++ ',' :: serializeQuotesSep qs

/-- `JSON.stringify` of the whole collection: the bracketed,
comma-separated record array. -/
def serializeQuotes (qs : List Quote) : String :=
  String.mk ('[' :: serializeQuotesSep qs ++ [']'])

/-- Decode the character following a backslash in a JSON string. -/
def decodeEscape (e : Char) : Option Char :=
  if e = '"' then some '"'
  else if e = '\\' then some '\\'
  else if e = '/' then some '/'
  else if e = 'n' then some '\n'
  else if e = 't' then some '\t'
  else if e = 'r' then some '\r'
  else if e = 'b' then some '\x08'
  else if e = 'f' then some '\x0c'
  else none

/-- Parse the body of a JSON string up to and including its closing
quote; return the decoded body and the remaining input. -/
def parseStringChars : List Char → Option (List Char × List Char)
  | [] => none
  | c :: rest =>
    if c = '"' then some ([], rest)
    else if c = '\\' then
      match rest with
      | [] => none
      | e :: rest2 =>
        match decodeEscape e with
        | none => none
        | some d => (parseStringChars rest2).map (fun p => (d :: p.1, p.2))
    else (parseStringChars rest).map (fun p => (c :: p.1, p.2))

/-- Consume an expected literal sequence of characters. -/
def expectChars : List Char → List Char → Option (List Char)
  | [], l => some l
  | _ :: _, [] => none
  | p :: ps, c :: cs => if c = p then expectChars ps cs else none

/-- Parse one serialized record; return it and the remaining input. -/
def parseQuoteObj (l : List Char) : Option (Quote × List Char) :=
  match expectChars "\x7b\"text\":\"".data l with
  | none => none
  | some l1 =>
    match parseStringChars l1 with
    | none => none
    | some (t, l2) =>
      match expectChars ",\"category\":\"".data l2 with
      | none => none
      | some l3 =>
        match parseStringChars l3 with
        | none => none
        | some (c, l4) =>
          match expectChars "\x7d".data l4 with
          | none => none
          | some l5 => some (⟨String.mk t, String.mk c⟩, l5)

/-- Parse one or more comma-separated records.  The fuel argument (the
input length suffices, each record consuming at least one character)
bounds the recursion. -/
def parseQuotesList : Nat → List Char → Option (List Quote × List Char)
  | 0, _ => none
  | fuel + 1, l =>
    match parseQuoteObj l with
    | none => none
    | some (q, rest) =>
      match rest with
      | ',' :: rest2 =>
        match parseQuotesList fuel rest2 with
        | none => none
        | some (qs, r) => some (q :: qs, r)
      | _ => some ([q], rest)

/-- `JSON.parse` on the canonical collection serialization: a bracketed
comma-separated record array consuming the whole string. -/
def parseQuotes (s : String) : Option (List Quote) :=
  match s.data with
  | '[' :: rest =>
    if rest = [']'] then some []
    else
      match parseQuotesList rest.length rest with
      | none => none
      | some (qs, tail) => if tail = [']'] then some qs else none
  | _ => none

/-! ### The operations -/

/-- Embedding of `saveQuotes` (`script.js` lines 25-27): serialize the
collection and overwrite the `quotes` storage key. -/
def saveQuotes (qs : List Quote) (st : Storage) : Storage :=
  { st with quotesVal := some (serializeQuotes qs) }

/-- Embedding of `loadQuotes` (`script.js` lines 32-39): if the
`quotes` key holds a string, deserialize it into the collection (a
string an uncorrupted store cannot hold parses to nothing and the
collection is left as it was — in the browser the `JSON.parse`
exception propagates out of `loadQuotes` before any assignment);
if the key is absent, persist the current (seed) collection. -/
def loadQuotes (st : Storage) (current : List Quote) : List Quote × Storage :=
  match st.quotesVal with
  | some storedQuotes =>
    match parseQuotes storedQuotes with
    | some qs => (qs, st)
    | none => (current, st)
  | none => (current, saveQuotes current st)

/-- Embedding of `addQuote` (`script.js` lines 251-278).  Trims both
form inputs; if both trims are non-empty (JS truthiness of a string is
non-emptiness) the record built from the trimmed values is pushed and
the collection is persisted (the `setTimeout` body runs the save; the
POST touches no local state); otherwise an error message is shown and
nothing changes.  The flag is `true` exactly on the success path. -/
def addQuote (qs : List Quote) (st : Storage) (textInput categoryInput : String) :
    List Quote × Storage × Bool :=
  let text := jsTrim textInput
  let category := jsTrim categoryInput
  if text ≠ "" ∧ category ≠ "" then
    let qs' := qs ++ [⟨text, category⟩]
    (qs', saveQuotes qs' st, true)
  else
    (qs, st, false)

/-- Embedding of `filterQuotes` (`script.js` lines 168-175): record the
selected category under the `lastFilter` key, then pass to the display
either the whole collection (selection `all`) or the records whose
`category` field is strictly equal to the selection.  Returns the list
handed to `showRandomQuote` and the updated storage. -/
def filterQuotes (qs : List Quote) (selectedCategory : String) (st : Storage) :
    List Quote × Storage :=
  let st' := { st with lastFilterVal := some selectedCategory }
  if selectedCategory = "all" then (qs, st')
  else (qs.filter (fun quote => quote.category == selectedCategory), st')

/-- One pass of the `Set`-based deduplication in `fetchQuotesFromServer`
(`script.js` lines 108-109): walk the concatenation keeping the first
occurrence of each record, a seen-set membership pass.  JavaScript
`Set` iteration order is insertion order, so the survivors keep the
order of their first occurrence.  The JS set key is
`JSON.stringify(q)`, equal for two records exactly when the
text/category pairs are equal (all records the script builds carry the
two keys in the same order), so the Lean seen-set holds `Quote` values
compared structurally. -/
def dedupBySeen (seen : List Quote) : List Quote → List Quote
  | [] => []
  | q :: qs =>
    if q ∈ seen then dedupBySeen seen qs
    else q :: dedupBySeen (q :: seen) qs

/-- The merge step of `fetchQuotesFromServer` (`script.js` lines
104-112): concatenate local then remote and deduplicate keeping first
occurrences. -/
def mergeQuotes (localQuotes remoteQuotes : List Quote) : List Quote :=
  dedupBySeen [] (localQuotes ++ remoteQuotes)

/-- The slice of a remote post the script reads (`post.title`,
`script.js` line 98); the mock API's other fields are never read. -/
structure ServerPost where
  title : String
deriving DecidableEq, Repr

/-- Embedding of `fetchQuotesFromServer` (`script.js` lines 90-126).
The outcome of `await fetch` plus `await response.json()` is passed in
as `response`: `none` when either throws (network or decode failure),
`some posts` on success.  Both awaits precede every mutation, so on
failure the `catch` shows a message and neither the collection nor the
storage changes; on success the posts are converted to records with
category `Server`, merged, and the result persisted.  The flag is
`true` exactly on the success path. -/
def fetchQuotesFromServer (qs : List Quote) (st : Storage)
    (response : Option (List ServerPost)) : List Quote × Storage × Bool :=
  match response with
  | none => (qs, st, false)
  | some serverPosts =>
    let serverQuotes := serverPosts.map (fun post => (⟨post.title, "Server"⟩ : Quote))
    let uniqueQuotes := mergeQuotes qs serverQuotes
    (uniqueQuotes, saveQuotes uniqueQuotes st, true)

/-- What `JSON.parse` can hand the import handler (`script.js` lines
62-82): a parse failure (the `catch` arm), a parsed value that is not
an array (the `else` arm), or an array.  The embedding types array
elements as `Quote` records; the handler itself performs no per-record
validation, which the embedding reflects by appending every element,
empty fields included. -/
inductive ImportData where
  | jsonError : ImportData
  | notArray : ImportData
  | array : List Quote → ImportData
deriving DecidableEq, Repr

/-- Embedding of `importFromJsonFile` (`script.js` lines 62-82): on a
parsed array, push every element onto the collection and persist; on a
non-array value or a parse error, show a message and change nothing.
The flag is `true` exactly on the array path. -/
def importFromJsonFile (qs : List Quote) (st : Storage) (data : ImportData) :
    List Quote × Storage × Bool :=
  match data with
  | .array importedQuotes =>
    let qs' := qs ++ importedQuotes
    (qs', saveQuotes qs' st, true)
  | _ => (qs, st, false)

/-! ### Entry-point traces

The operations a user or the sync timer can run against the shared
collection, for stating invariants over any sequence of them. -/

/-- One entry-point operation on the shared state. -/
inductive Op where
  | add (textInput categoryInput : String)
  | sync (response : Option (List ServerPost))
  | imp (data : ImportData)
deriving DecidableEq, Repr

/-- Apply one operation to the collection/storage pair. -/
def applyOp (s : List Quote × Storage) : Op → List Quote × Storage
  | .add t c => let r := addQuote s.1 s.2 t c; (r.1, r.2.1)
  | .sync response => let r := fetchQuotesFromServer s.1 s.2 response; (r.1, r.2.1)
  | .imp data => let r := importFromJsonFile s.1 s.2 data; (r.1, r.2.1)

/-- Run a sequence of entry-point operations. -/
def run (s : List Quote × Storage) (ops : List Op) : List Quote × Storage :=
  ops.foldl applyOp s

/-! ### Predicates for the stated properties -/

/-- Every record of the collection has non-empty text and category. -/
def AllNonEmpty (qs : List Quote) : Prop :=
  ∀ q ∈ qs, q.text ≠ "" ∧ q.category ≠ ""

instance : DecidablePred AllNonEmpty := fun qs =>
  inferInstanceAs (Decidable (∀ q ∈ qs, q.text ≠ "" ∧ q.category ≠ ""))

/-- An entry-point operation that only feeds non-empty material to the
collection: any add (the code validates those), any failed or
empty-title-free sync, and any import whose records all have non-empty
fields (the code checks neither of the last two). -/
def GoodOp : Op → Prop
  | .add _ _ => True
  | .sync none => True
  | .sync (some posts) => ∀ p ∈ posts, p.title ≠ ""
  | .imp (.array importedQuotes) => AllNonEmpty importedQuotes
  | .imp _ => True

instance : DecidablePred GoodOp := fun op =>
  match op with
  | .add _ _ => inferInstanceAs (Decidable True)
  | .sync none => inferInstanceAs (Decidable True)
  | .sync (some posts) => inferInstanceAs (Decidable (∀ p ∈ posts, p.title ≠ ""))
  | .imp (.array importedQuotes) => inferInstanceAs (Decidable (AllNonEmpty importedQuotes))
  | .imp .jsonError => inferInstanceAs (Decidable True)
  | .imp .notArray => inferInstanceAs (Decidable True)

/-- The string carries no leading and no trailing whitespace. -/
def TrimmedStr (s : String) : Prop :=
  (∀ c, s.data.head? = some c → isJsWhitespace c = false) ∧
  (∀ c, s.data.getLast? = some c → isJsWhitespace c = false)

/-! ### Lemmas about the storage codec -/

theorem parseStringChars_closeQuote (l : List Char) :
    parseStringChars ('"' :: l) = some ([], l) := by
  rw [parseStringChars.eq_def]
  norm_num

theorem parseStringChars_escape (e d : Char) (l : List Char)
    (h : decodeEscape e = some d) :
    parseStringChars ('\\' :: e :: l) =
      (parseStringChars l).map (fun p => (d :: p.1, p.2)) := by
  rw [parseStringChars.eq_def]
  have h1 : ('\\' : Char) ≠ '"' := by decide
  simp [h1, h]

theorem parseStringChars_lit (c : Char) (l : List Char) (h1 : ¬c = '"')
    (h2 : ¬c = '\\') :
    parseStringChars (c :: l) =
      (parseStringChars l).map (fun p => (c :: p.1, p.2)) := by
  rw [parseStringChars.eq_def]
  simp only [if_neg h1, if_neg h2]

theorem parseStringChars_escapeChars (s : List Char) :
    ∀ rest, parseStringChars (escapeChars s ++ '"' :: rest) = some (s, rest) := by
  induction s with
  | nil =>
    intro rest
    rw [escapeChars, List.nil_append, parseStringChars_closeQuote]
  | cons c cs ih =>
    intro rest
    rw [escapeChars, List.append_assoc]
    by_cases h1 : c = '"'
    · subst h1
      rw [show escapeChar '"' ++ (escapeChars cs ++ '"' :: rest) =
        '\\' :: '"' :: (escapeChars cs ++ '"' :: rest) from rfl]
      rw [parseStringChars_escape '"' '"' _ (by decide), ih]
      rfl
    · by_cases h2 : c = '\\'
      · subst h2
        rw [show escapeChar '\\' ++ (escapeChars cs ++ '"' :: rest) =
          '\\' :: '\\' :: (escapeChars cs ++ '"' :: rest) from rfl]
        rw [parseStringChars_escape '\\' '\\' _ (by decide), ih]
        rfl
      · by_cases h3 : c = '\n'
        · subst h3
          rw [show escapeChar '\n' ++ (escapeChars cs ++ '"' :: rest) =
            '\\' :: 'n' :: (escapeChars cs ++ '"' :: rest) from rfl]
          rw [parseStringChars_escape 'n' '\n' _ (by decide), ih]
          rfl
        · by_cases h4 : c = '\t'
          · subst h4
            rw [show escapeChar '\t' ++ (escapeChars cs ++ '"' :: rest) =
              '\\' :: 't' :: (escapeChars cs ++ '"' :: rest) from rfl]
            rw [parseStringChars_escape 't' '\t' _ (by decide), ih]
            rfl
          · by_cases h5 : c = '\r'
            · subst h5
              rw [show escapeChar '\r' ++ (escapeChars cs ++ '"' :: rest) =
                '\\' :: 'r' :: (escapeChars cs ++ '"' :: rest) from rfl]
              rw [parseStringChars_escape 'r' '\r' _ (by decide), ih]
              rfl
            · rw [show escapeChar c = [c] by
                rw [escapeChar, if_neg h1, if_neg h2, if_neg h3, if_neg h4, if_neg h5]]
              rw [List.singleton_append, parseStringChars_lit c _ h1 h2, ih]
              rfl

theorem expectChars_append (pat : List Char) :
    ∀ rest, expectChars pat (pat ++ rest) = some rest := by
  induction pat with
  | nil => intro rest; rfl
  | cons p ps ih =>
    intro rest
    rw [List.cons_append, expectChars.eq_def]
    simp [ih]

theorem parseQuoteObj_serialize (q : Quote) (rest : List Char) :
    parseQuoteObj (serializeQuoteChars q ++ rest) = some (q, rest) := by
  have hsplit : serializeQuoteChars q ++ rest =
      "\x7b\"text\":\"".data ++ (escapeChars q.text.data ++ '"' ::
        (",\"category\":\"".data ++ (escapeChars q.category.data ++ '"' ::
          ("\x7d".data ++ rest)))) := by
    rw [serializeQuoteChars]
    rw [show "\",\"category\":\"".data = '"' :: ",\"category\":\"".data from rfl]
    rw [show "\"\x7d".data = '"' :: "\x7d".data from rfl]
    simp [List.append_assoc]
  rw [hsplit, parseQuoteObj]
  simp only [expectChars_append, parseStringChars_escapeChars]

theorem parseQuotesList_serialize (qs : List Quote) :
    ∀ (fuel : Nat) (r : List Char), qs ≠ [] → qs.length ≤ fuel →
    parseQuotesList fuel (serializeQuotesSep qs ++ ']' :: r) =
      some (qs, ']' :: r) := by
  induction qs with
  | nil => intro fuel r h; exact absurd rfl h
  | cons q qs ih =>
    intro fuel r _ hlen
    obtain ⟨f, rfl⟩ : ∃ f, fuel = f + 1 := by
      cases fuel
      · simp at hlen
      · exact ⟨_, rfl⟩
    cases qs with
    | nil =>
      rw [show serializeQuotesSep [q] = serializeQuoteChars q from rfl]
      rw [parseQuotesList, parseQuoteObj_serialize]
      have hne : (']' : Char) ≠ ',' := by decide
      simp [hne]
    | cons q2 qs2 =>
      rw [show serializeQuotesSep (q :: q2 :: qs2) =
        serializeQuoteChars q ++ ',' :: serializeQuotesSep (q2 :: qs2) from rfl]
      rw [show (serializeQuoteChars q ++ ',' :: serializeQuotesSep (q2 :: qs2)) ++ ']' :: r =
        serializeQuoteChars q ++
          (',' :: (serializeQuotesSep (q2 :: qs2) ++ ']' :: r)) by simp]
      have hrec := ih f r (by simp) (by simpa using Nat.le_of_succ_le_succ hlen)
      simp [parseQuotesList, parseQuoteObj_serialize, hrec]

theorem one_le_length_serializeQuoteChars (q : Quote) :
    1 ≤ (serializeQuoteChars q).length := by
  rw [serializeQuoteChars]
  simp [List.length_append]

theorem length_le_serializeQuotesSep (qs : List Quote) :
    qs.length ≤ (serializeQuotesSep qs).length := by
  induction qs with
  | nil => simp [serializeQuotesSep]
  | cons q qs ih =>
    cases qs with
    | nil =>
      rw [show serializeQuotesSep [q] = serializeQuoteChars q from rfl]
      simpa using one_le_length_serializeQuoteChars q
    | cons q2 qs2 =>
      rw [show serializeQuotesSep (q :: q2 :: qs2) =
        serializeQuoteChars q ++ ',' :: serializeQuotesSep (q2 :: qs2) from rfl]
      have h1 := one_le_length_serializeQuoteChars q
      have h2 : (q2 :: qs2).length ≤ (serializeQuotesSep (q2 :: qs2)).length := ih
      simp only [List.length_append, List.length_cons] at h2 ⊢
      omega

theorem parseQuotes_serialize (qs : List Quote) :
    parseQuotes (serializeQuotes qs) = some qs := by
  cases qs with
  | nil => rfl
  | cons q qs' =>
    rw [serializeQuotes]
    have hfuel : (q :: qs').length ≤ (serializeQuotesSep (q :: qs') ++ [']']).length := by
      have := length_le_serializeQuotesSep (q :: qs')
      simp only [List.length_append, List.length_cons] at this ⊢
      omega
    have hne : serializeQuotesSep (q :: qs') ++ [']'] ≠ [']'] := by
      intro hcontra
      have hlen := congrArg List.length hcontra
      have h1 := length_le_serializeQuotesSep (q :: qs')
      simp only [List.length_append, List.length_cons] at hlen h1
      omega
    have hstep : parseQuotes (String.mk ('[' :: serializeQuotesSep (q :: qs') ++ [']'])) =
        (if serializeQuotesSep (q :: qs') ++ [']'] = [']'] then some [] else
          match parseQuotesList (serializeQuotesSep (q :: qs') ++ [']']).length
              (serializeQuotesSep (q :: qs') ++ [']']) with
          | none => none
          | some (qs, tail) => if tail = [']'] then some qs else none) := rfl
    rw [hstep, if_neg hne,
      parseQuotesList_serialize (q :: qs') _ [] (by simp) hfuel]
    simp

/-! ### The claim about the save/load round trip -/

/-- C3: saving any collection and then loading from the resulting
(uncorrupted) storage returns the collection unchanged: same order,
same text and category in every record. -/
theorem save_load_round_trip (qs current : List Quote) (st : Storage) :
    (loadQuotes (saveQuotes qs st) current).1 = qs := by
  simp [loadQuotes, saveQuotes, parseQuotes_serialize]

/-! ### Lemmas about the seen-set deduplication pass -/

theorem mem_dedupBySeen (l : List Quote) : ∀ (seen : List Quote) (x : Quote),
    x ∈ dedupBySeen seen l ↔ x ∈ l ∧ x ∉ seen := by
  induction l with
  | nil => intro seen x; simp [dedupBySeen]
  | cons q qs ih =>
    intro seen x
    by_cases hq : q ∈ seen
    · rw [dedupBySeen, if_pos hq, ih]
      constructor
      · exact fun h => ⟨List.mem_cons_of_mem _ h.1, h.2⟩
      · rintro ⟨h1, h2⟩
        rcases List.mem_cons.mp h1 with rfl | h1
        · exact absurd hq h2
        · exact ⟨h1, h2⟩
    · rw [dedupBySeen, if_neg hq, List.mem_cons, ih]
      by_cases hxq : x = q
      · subst hxq; simp [hq]
      · simp only [List.mem_cons, hxq, false_or]

theorem nodup_dedupBySeen (l : List Quote) : ∀ seen, (dedupBySeen seen l).Nodup := by
  induction l with
  | nil => intro seen; simp [dedupBySeen]
  | cons q qs ih =>
    intro seen
    by_cases hq : q ∈ seen
    · rw [dedupBySeen, if_pos hq]; exact ih seen
    · rw [dedupBySeen, if_neg hq]
      refine List.nodup_cons.mpr ⟨?_, ih _⟩
      intro hmem
      exact ((mem_dedupBySeen qs (q :: seen) q).mp hmem).2 (List.mem_cons_self q seen)

theorem dedupBySeen_sublist (l : List Quote) :
    ∀ seen, (dedupBySeen seen l).Sublist l := by
  induction l with
  | nil => intro seen; simp [dedupBySeen]
  | cons q qs ih =>
    intro seen
    by_cases hq : q ∈ seen
    · rw [dedupBySeen, if_pos hq]
      exact (ih seen).trans (List.sublist_cons_self q qs)
    · rw [dedupBySeen, if_neg hq]
      exact (ih (q :: seen)).cons₂ q

theorem dedupBySeen_congr (l : List Quote) : ∀ s₁ s₂ : List Quote,
    (∀ x : Quote, x ∈ s₁ ↔ x ∈ s₂) → dedupBySeen s₁ l = dedupBySeen s₂ l := by
  induction l with
  | nil => intro _ _ _; rfl
  | cons q qs ih =>
    intro s₁ s₂ h
    by_cases hq : q ∈ s₁
    · rw [dedupBySeen, if_pos hq, dedupBySeen, if_pos ((h q).mp hq)]
      exact ih _ _ h
    · rw [dedupBySeen, if_neg hq, dedupBySeen, if_neg (fun hx => hq ((h q).mpr hx))]
      exact congrArg _ (ih _ _ (fun x => by simp only [List.mem_cons, h x]))

theorem dedupBySeen_append (l₁ : List Quote) : ∀ (l₂ seen : List Quote),
    dedupBySeen seen (l₁ ++ l₂) =
      dedupBySeen seen l₁ ++ dedupBySeen (l₁ ++ seen) l₂ := by
  induction l₁ with
  | nil => intro l₂ seen; simp [dedupBySeen]
  | cons q qs ih =>
    intro l₂ seen
    by_cases hq : q ∈ seen
    · rw [List.cons_append, dedupBySeen, if_pos hq, dedupBySeen, if_pos hq, ih]
      refine congrArg _ (dedupBySeen_congr _ _ _ (fun x => ?_))
      simp only [List.mem_append, List.cons_append, List.mem_cons]
      constructor
      · tauto
      · rintro (rfl | h)
        · exact Or.inr hq
        · exact h
    · rw [List.cons_append, dedupBySeen, if_neg hq, dedupBySeen, if_neg hq, ih,
        List.cons_append]
      refine congrArg _ (congrArg _ (dedupBySeen_congr _ _ _ (fun x => ?_)))
      simp only [List.mem_append, List.mem_cons, List.cons_append]
      tauto

theorem dedupBySeen_eq_self (l : List Quote) : ∀ seen : List Quote, l.Nodup →
    (∀ x ∈ l, x ∉ seen) → dedupBySeen seen l = l := by
  induction l with
  | nil => intro seen _ _; rfl
  | cons q qs ih =>
    intro seen hnd hdisj
    rw [dedupBySeen, if_neg (hdisj q (List.mem_cons_self q qs))]
    refine congrArg _ (ih _ (List.nodup_cons.mp hnd).2 (fun x hx => ?_))
    rw [List.mem_cons]
    rintro (rfl | hs)
    · exact (List.nodup_cons.mp hnd).1 hx
    · exact hdisj x (List.mem_cons_of_mem _ hx) hs

theorem mem_mergeQuotes (L R : List Quote) (q : Quote) :
    q ∈ mergeQuotes L R ↔ q ∈ L ∨ q ∈ R := by
  rw [mergeQuotes, mem_dedupBySeen]
  simp [List.mem_append]

/-! ### The claims about the merge step -/

/-- C1: the merge step of the sync cycle produces a collection whose
size is the cardinality of L union R under structural record equality,
containing every record in L or R and none from outside them. -/
theorem merge_is_union (L R : List Quote) :
    (mergeQuotes L R).length = (L.toFinset ∪ R.toFinset).card ∧
    ∀ q : Quote, q ∈ mergeQuotes L R ↔ q ∈ L ∨ q ∈ R := by
  refine ⟨?_, mem_mergeQuotes L R⟩
  have hnd : (mergeQuotes L R).Nodup := nodup_dedupBySeen _ _
  have hfin : (mergeQuotes L R).toFinset = L.toFinset ∪ R.toFinset := by
    ext q
    simp only [List.mem_toFinset, Finset.mem_union, mem_mergeQuotes L R q]
  rw [← List.toFinset_card_of_nodup hnd, hfin]

/-- C2: the merge concatenates local-then-remote and keeps first
occurrences, so it is an order-stable sublist of the concatenation,
and on a duplicate-free local collection it is the local collection
followed by the remote records not already present — the local copy of
every duplicate is kept, a union rather than a server-wins
overwrite. -/
theorem merge_keeps_local_order (L R : List Quote) :
    (mergeQuotes L R).Sublist (L ++ R) ∧
    (L.Nodup → mergeQuotes L R = L ++ dedupBySeen L R) := by
  constructor
  · exact dedupBySeen_sublist _ _
  · intro hnd
    rw [mergeQuotes, dedupBySeen_append]
    have h1 : dedupBySeen [] L = L :=
      dedupBySeen_eq_self L [] hnd (by simp)
    have h2 : dedupBySeen (L ++ []) R = dedupBySeen L R :=
      dedupBySeen_congr R (L ++ []) L (fun x => by simp)
    rw [h1, h2]

theorem merge_keeps_local_order_witness :
    (mergeQuotes [⟨"a", "x"⟩, ⟨"b", "y"⟩] [⟨"b", "y"⟩, ⟨"c", "Server"⟩]).Sublist
      ([⟨"a", "x"⟩, ⟨"b", "y"⟩] ++ [⟨"b", "y"⟩, ⟨"c", "Server"⟩]) ∧
    mergeQuotes [⟨"a", "x"⟩, ⟨"b", "y"⟩] [⟨"b", "y"⟩, ⟨"c", "Server"⟩] =
      [⟨"a", "x"⟩, ⟨"b", "y"⟩] ++
        dedupBySeen [⟨"a", "x"⟩, ⟨"b", "y"⟩] [⟨"b", "y"⟩, ⟨"c", "Server"⟩] :=
  ⟨(merge_keeps_local_order [⟨"a", "x"⟩, ⟨"b", "y"⟩] [⟨"b", "y"⟩, ⟨"c", "Server"⟩]).1,
   (merge_keeps_local_order [⟨"a", "x"⟩, ⟨"b", "y"⟩] [⟨"b", "y"⟩, ⟨"c", "Server"⟩]).2
     (by decide)⟩

/-! ### Lemmas about trimming -/

theorem head?_dropWhile_false (p : Char → Bool) (l : List Char) (c : Char)
    (h : (l.dropWhile p).head? = some c) : p c = false := by
  induction l with
  | nil => simp [List.dropWhile] at h
  | cons a l ih =>
    rw [List.dropWhile_cons] at h
    by_cases hpa : p a = true
    · rw [if_pos hpa] at h
      exact ih h
    · rw [if_neg hpa] at h
      simp only [List.head?_cons, Option.some.injEq] at h
      subst h
      exact Bool.eq_false_iff.mpr hpa

theorem getLast?_dropWhile_of_ne_nil (p : Char → Bool) (l : List Char)
    (h : l.dropWhile p ≠ []) : (l.dropWhile p).getLast? = l.getLast? := by
  induction l with
  | nil => simp [List.dropWhile] at h
  | cons a l ih =>
    rw [List.dropWhile_cons] at h ⊢
    by_cases hpa : p a = true
    · rw [if_pos hpa] at h ⊢
      have hl : l ≠ [] := by
        intro he
        subst he
        simp [List.dropWhile] at h
      cases l with
      | nil => exact absurd rfl hl
      | cons b l2 => rw [ih h, List.getLast?_cons_cons]
    · rw [if_neg hpa]

theorem jsTrim_trimmed (s : String) : TrimmedStr (jsTrim s) := by
  constructor
  · intro c hc
    have hdata : (jsTrim s).data =
        ((s.data.dropWhile isJsWhitespace).reverse.dropWhile isJsWhitespace).reverse := rfl
    rw [hdata, List.head?_reverse] at hc
    have hne : (s.data.dropWhile isJsWhitespace).reverse.dropWhile isJsWhitespace ≠ [] := by
      intro he
      rw [he] at hc
      exact Option.noConfusion hc
    rw [getLast?_dropWhile_of_ne_nil _ _ hne, List.getLast?_reverse] at hc
    exact head?_dropWhile_false _ _ _ hc
  · intro c hc
    have hdata : (jsTrim s).data =
        ((s.data.dropWhile isJsWhitespace).reverse.dropWhile isJsWhitespace).reverse := rfl
    rw [hdata, List.getLast?_reverse] at hc
    exact head?_dropWhile_false _ _ _ hc

/-! ### The claims about filtering -/

/-- C4: filtering by the literal selection `all` returns the entire
collection unchanged, and filtering by any other selection returns
exactly the subsequence of records whose category field equals the
selection under case-sensitive exact string comparison. -/
theorem filterQuotes_spec (qs : List Quote) (selectedCategory : String) (st : Storage) :
    (filterQuotes qs "all" st).1 = qs ∧
    ((filterQuotes qs selectedCategory st).1).Sublist qs ∧
    (selectedCategory ≠ "all" →
      (filterQuotes qs selectedCategory st).1 =
        qs.filter (fun quote => quote.category == selectedCategory)) ∧
    (selectedCategory ≠ "all" → ∀ q : Quote,
      q ∈ (filterQuotes qs selectedCategory st).1 ↔
        q ∈ qs ∧ q.category = selectedCategory) := by
  refine ⟨by rw [filterQuotes]; simp, ?_, ?_, ?_⟩
  · rw [filterQuotes]
    by_cases h : selectedCategory = "all"
    · simp only [if_pos h]
      exact List.Sublist.refl qs
    · simp only [if_neg h]
      exact List.filter_sublist qs
  · intro h
    rw [filterQuotes]
    simp only [if_neg h]
  · intro h q
    rw [filterQuotes]
    simp only [if_neg h, List.mem_filter, beq_iff_eq]

theorem filterQuotes_spec_witness :
    ((filterQuotes [⟨"a", "Work"⟩, ⟨"b", "Life"⟩] "all" emptyStorage).1 =
      [⟨"a", "Work"⟩, ⟨"b", "Life"⟩] ∧
    ((filterQuotes [⟨"a", "Work"⟩, ⟨"b", "Life"⟩] "Work" emptyStorage).1).Sublist
      [⟨"a", "Work"⟩, ⟨"b", "Life"⟩] ∧
    (filterQuotes [⟨"a", "Work"⟩, ⟨"b", "Life"⟩] "Work" emptyStorage).1 =
      List.filter (fun quote => quote.category == "Work") [⟨"a", "Work"⟩, ⟨"b", "Life"⟩] ∧
    ∀ q : Quote, q ∈ (filterQuotes [⟨"a", "Work"⟩, ⟨"b", "Life"⟩] "Work" emptyStorage).1 ↔
      q ∈ [⟨"a", "Work"⟩, ⟨"b", "Life"⟩] ∧ q.category = "Work") :=
  ⟨(filterQuotes_spec [⟨"a", "Work"⟩, ⟨"b", "Life"⟩] "Work" emptyStorage).1,
   (filterQuotes_spec [⟨"a", "Work"⟩, ⟨"b", "Life"⟩] "Work" emptyStorage).2.1,
   (filterQuotes_spec [⟨"a", "Work"⟩, ⟨"b", "Life"⟩] "Work" emptyStorage).2.2.1 (by decide),
   (filterQuotes_spec [⟨"a", "Work"⟩, ⟨"b", "Life"⟩] "Work" emptyStorage).2.2.2 (by decide)⟩

/-! ### The claims about adding records -/

/-- C5, counterexample: with the whitespace-padded but valid input
text, the appended record carries the trimmed text, not the input text
verbatim, so the claim that the appended record equals the input
exactly fails. -/
theorem addQuote_not_verbatim :
    jsTrim " a " ≠ "" ∧ jsTrim "b" ≠ "" ∧
    (addQuote [] emptyStorage " a " "b").1 = [⟨"a", "b"⟩] ∧
    (addQuote [] emptyStorage " a " "b").1 ≠ [⟨" a ", "b"⟩] := by
  decide

/-- C5, amended: every add whose trimmed text and category are
non-empty appends exactly one record, whose text and category equal
the trimmed input, persists the result, and leaves the previously
present records unchanged. -/
theorem addQuote_valid_appends (qs : List Quote) (st : Storage) (t c : String)
    (ht : jsTrim t ≠ "") (hc : jsTrim c ≠ "") :
    addQuote qs st t c =
      (qs ++ [⟨jsTrim t, jsTrim c⟩], saveQuotes (qs ++ [⟨jsTrim t, jsTrim c⟩]) st, true) ∧
    (addQuote qs st t c).1.length = qs.length + 1 ∧
    (addQuote qs st t c).1.take qs.length = qs := by
  have hstep : addQuote qs st t c =
      (qs ++ [⟨jsTrim t, jsTrim c⟩], saveQuotes (qs ++ [⟨jsTrim t, jsTrim c⟩]) st, true) := by
    simp only [addQuote]
    rw [if_pos ⟨ht, hc⟩]
  refine ⟨hstep, ?_, ?_⟩
  · rw [hstep]
    simp
  · rw [hstep]
    simp

theorem addQuote_valid_appends_witness :
    jsTrim "x" ≠ "" ∧ jsTrim "y" ≠ "" ∧
    (addQuote [] emptyStorage "x" "y" =
      (([] : List Quote) ++ [(⟨jsTrim "x", jsTrim "y"⟩ : Quote)],
        saveQuotes (([] : List Quote) ++ [(⟨jsTrim "x", jsTrim "y"⟩ : Quote)]) emptyStorage,
        true) ∧
    (addQuote [] emptyStorage "x" "y").1.length = List.length ([] : List Quote) + 1 ∧
    (addQuote [] emptyStorage "x" "y").1.take (List.length ([] : List Quote)) = []) :=
  ⟨by decide, by decide,
   addQuote_valid_appends [] emptyStorage "x" "y" (by decide) (by decide)⟩

/-- C6: adding with empty text, empty category, or both leaves the
collection and the storage exactly as they were, signalling failure
through the user-facing message (the `false` flag) rather than by
throwing or mutating state. -/
theorem addQuote_rejects_empty (qs : List Quote) (st : Storage) (t c : String)
    (h : t = "" ∨ c = "") : addQuote qs st t c = (qs, st, false) := by
  have h0 : jsTrim "" = "" := rfl
  simp only [addQuote]
  rw [if_neg]
  rintro ⟨h1, h2⟩
  rcases h with rfl | rfl
  · exact h1 h0
  · exact h2 h0

theorem addQuote_rejects_empty_witness :
    ("" = "" ∨ "y" = "") ∧
    addQuote initialQuotes emptyStorage "" "y" = (initialQuotes, emptyStorage, false) :=
  ⟨Or.inl rfl, addQuote_rejects_empty initialQuotes emptyStorage "" "y" (Or.inl rfl)⟩

/-- C10: both form inputs are trimmed before validation and storage: a
whitespace-only text or category trims to empty and is rejected with
no state change, and on success the appended record carries the
trimmed field values, which have no leading or trailing whitespace. -/
theorem addQuote_trims_whitespace (qs : List Quote) (st : Storage) (t c : String) :
    (jsTrim t = "" ∨ jsTrim c = "" → addQuote qs st t c = (qs, st, false)) ∧
    (jsTrim t ≠ "" → jsTrim c ≠ "" →
      (addQuote qs st t c).1 = qs ++ [⟨jsTrim t, jsTrim c⟩] ∧
      TrimmedStr (jsTrim t) ∧ TrimmedStr (jsTrim c)) := by
  constructor
  · intro h
    simp only [addQuote]
    rw [if_neg]
    rintro ⟨h1, h2⟩
    rcases h with h | h
    · exact h1 h
    · exact h2 h
  · intro ht hc
    refine ⟨?_, jsTrim_trimmed t, jsTrim_trimmed c⟩
    simp only [addQuote]
    rw [if_pos ⟨ht, hc⟩]

theorem addQuote_trims_whitespace_witness :
    ((jsTrim " \t " = "" ∨ jsTrim "y" = "") ∧
      addQuote [] emptyStorage " \t " "y" = ([], emptyStorage, false)) ∧
    (jsTrim " a " ≠ "" ∧ jsTrim " b " ≠ "" ∧
      ((addQuote [] emptyStorage " a " " b ").1 =
          ([] : List Quote) ++ [(⟨jsTrim " a ", jsTrim " b "⟩ : Quote)] ∧
        TrimmedStr (jsTrim " a ") ∧ TrimmedStr (jsTrim " b "))) :=
  ⟨⟨Or.inl (by decide),
    (addQuote_trims_whitespace [] emptyStorage " \t " "y").1 (Or.inl (by decide))⟩,
   by decide, by decide,
   (addQuote_trims_whitespace [] emptyStorage " a " " b ").2 (by decide) (by decide)⟩

/-! ### The claims about the sync failure path and the import path -/

/-- C7: when the remote fetch or the response decode fails, the cycle
catches the error, reports it (the `false` flag is the user-facing
message), skips the merge, and leaves the collection and the persisted
storage exactly as they were. -/
theorem fetch_failure_no_mutation (qs : List Quote) (st : Storage) :
    fetchQuotesFromServer qs st none = (qs, st, false) := rfl

/-- C8: importing a parsed JSON array appends each of its elements
verbatim to the end of the collection, with no per-record validation;
in particular the singleton array with text `A` and category `B`
appends exactly that one record, leaving the pre-existing records
unchanged. -/
theorem import_appends (qs : List Quote) (st : Storage) (importedQuotes : List Quote) :
    importFromJsonFile qs st (.array importedQuotes) =
      (qs ++ importedQuotes, saveQuotes (qs ++ importedQuotes) st, true) ∧
    importFromJsonFile qs st (.array [(⟨"A", "B"⟩ : Quote)]) =
      (qs ++ [(⟨"A", "B"⟩ : Quote)], saveQuotes (qs ++ [(⟨"A", "B"⟩ : Quote)]) st, true) ∧
    (qs ++ [(⟨"A", "B"⟩ : Quote)]).length = qs.length + 1 ∧
    (qs ++ [(⟨"A", "B"⟩ : Quote)]).take qs.length = qs := by
  refine ⟨rfl, rfl, by simp, by simp⟩

/-! ### The invariant claim -/

theorem AllNonEmpty_append {l1 l2 : List Quote} (h1 : AllNonEmpty l1)
    (h2 : AllNonEmpty l2) : AllNonEmpty (l1 ++ l2) := by
  intro q hq
  rcases List.mem_append.mp hq with h | h
  · exact h1 q h
  · exact h2 q h

theorem addQuote_preserves_nonempty (qs : List Quote) (st : Storage) (t c : String)
    (h : AllNonEmpty qs) : AllNonEmpty (addQuote qs st t c).1 := by
  by_cases hv : jsTrim t ≠ "" ∧ jsTrim c ≠ ""
  · have hstep : (addQuote qs st t c).1 = qs ++ [⟨jsTrim t, jsTrim c⟩] := by
      simp only [addQuote]
      rw [if_pos hv]
    rw [hstep]
    refine AllNonEmpty_append h ?_
    intro q hq
    rw [List.mem_singleton] at hq
    subst hq
    exact hv
  · have hstep : (addQuote qs st t c).1 = qs := by
      simp only [addQuote]
      rw [if_neg hv]
    rw [hstep]
    exact h

theorem fetch_preserves_nonempty (qs : List Quote) (st : Storage)
    (response : Option (List ServerPost)) (h : AllNonEmpty qs)
    (hr : ∀ posts, response = some posts → ∀ p ∈ posts, p.title ≠ "") :
    AllNonEmpty (fetchQuotesFromServer qs st response).1 := by
  cases response with
  | none => exact h
  | some posts =>
    intro q hq
    have hq2 : q ∈ mergeQuotes qs (posts.map (fun post => (⟨post.title, "Server"⟩ : Quote))) := hq
    rcases (mem_mergeQuotes _ _ q).mp hq2 with hql | hqr
    · exact h q hql
    · rw [List.mem_map] at hqr
      obtain ⟨p, hp, rfl⟩ := hqr
      refine ⟨hr posts rfl p hp, ?_⟩
      show ("Server" : String) ≠ ""
      decide

theorem import_preserves_nonempty (qs : List Quote) (st : Storage) (data : ImportData)
    (h : AllNonEmpty qs) (hd : ∀ imported, data = .array imported → AllNonEmpty imported) :
    AllNonEmpty (importFromJsonFile qs st data).1 := by
  cases data with
  | array imported => exact AllNonEmpty_append h (hd imported rfl)
  | jsonError => exact h
  | notArray => exact h

theorem applyOp_preserves_nonempty (s : List Quote × Storage) (op : Op)
    (hs : AllNonEmpty s.1) (hop : GoodOp op) : AllNonEmpty (applyOp s op).1 := by
  cases op with
  | add t c => exact addQuote_preserves_nonempty s.1 s.2 t c hs
  | sync response =>
    refine fetch_preserves_nonempty s.1 s.2 response hs ?_
    intro posts hresp
    subst hresp
    exact hop
  | imp data =>
    refine import_preserves_nonempty s.1 s.2 data hs ?_
    intro imported hdata
    subst hdata
    exact hop

/-- C9, counterexample: importing the singleton array whose record has
empty text and empty category puts that record into the collection
held by the Local Store, so after that entry-point operation not every
record has non-empty fields. -/
theorem import_breaks_nonempty_invariant :
    (⟨"", ""⟩ : Quote) ∈ (run (initialQuotes, emptyStorage) [Op.imp (.array [⟨"", ""⟩])]).1 ∧
    ¬ AllNonEmpty (run (initialQuotes, emptyStorage) [Op.imp (.array [⟨"", ""⟩])]).1 := by
  decide

/-- C9, amended: after any sequence of entry-point operations in which
every imported record has non-empty fields and every fetched server
post has a non-empty title (the code validates neither path), a
collection whose records all have non-empty text and category keeps
that property: adds are validated, merge only unions, and such imports
and syncs only append non-empty material. -/
theorem run_preserves_nonempty (init : List Quote × Storage) (ops : List Op)
    (h0 : AllNonEmpty init.1) (hops : ∀ op ∈ ops, GoodOp op) :
    AllNonEmpty (run init ops).1 := by
  induction ops generalizing init with
  | nil => exact h0
  | cons op ops ih =>
    have hstep : run init (op :: ops) = run (applyOp init op) ops := rfl
    rw [hstep]
    exact ih (applyOp init op)
      (applyOp_preserves_nonempty init op h0 (hops op (List.mem_cons_self _ _)))
      (fun o ho => hops o (List.mem_cons_of_mem _ ho))

theorem run_preserves_nonempty_witness :
    AllNonEmpty (initialQuotes, emptyStorage).1 ∧
    (∀ op ∈ [Op.add " x " "y", Op.sync (some [⟨"t"⟩]),
      Op.imp (.array [⟨"A", "B"⟩]), Op.sync none], GoodOp op) ∧
    AllNonEmpty (run (initialQuotes, emptyStorage) [Op.add " x " "y",
      Op.sync (some [⟨"t"⟩]), Op.imp (.array [⟨"A", "B"⟩]), Op.sync none]).1 :=
  ⟨by decide, by decide,
   run_preserves_nonempty (initialQuotes, emptyStorage)
     [Op.add " x " "y", Op.sync (some [⟨"t"⟩]), Op.imp (.array [⟨"A", "B"⟩]), Op.sync none]
     (by decide) (by decide)⟩


end QuoteApp
